import Mathlib

/-!
Verification of the field normalization and aggregation engine of
`research_fields_extractor.py` (class `ResearchFieldExtractor`).

Python strings are embedded as lists of Unicode code points (`List Nat`);
the case-mapping functions model Python's `str.title()` on the ASCII
letters, which is the fragment exercised by the repository's data and by
every concrete example below.  Machine integers are embedded as `Int`
(Python integers are unbounded).
-/

set_option maxRecDepth 4000

/-- Code points of a Lean string literal, used to write concrete Python
strings readably. -/
def pystr (s : String) : List Nat := s.data.map Char.toNat

/-- Whitespace class of Python's `str.strip()` and of `\s` in `re` over
ASCII: space, tab, newline, carriage return, vertical tab, form feed. -/
def isWs (n : Nat) : Bool := n == 32 || n == 9 || n == 10 || n == 13 || n == 11 || n == 12

/-- The fixed terminator set of `clean_interest`: the characters of the
regex class in `re.sub(r'[.,;!?]+$', '', cleaned)`. -/
def isPunct (n : Nat) : Bool := n == 46 || n == 44 || n == 59 || n == 33 || n == 63

/-- ASCII uppercase letter. -/
def isUpperA (n : Nat) : Bool := decide (65 ≤ n ∧ n ≤ 90)

/-- ASCII lowercase letter. -/
def isLowerA (n : Nat) : Bool := decide (97 ≤ n ∧ n ≤ 122)

/-- ASCII letter (the word characters of Python's `str.title()` on ASCII). -/
def isAlphaA (n : Nat) : Bool := isUpperA n || isLowerA n

/-- Lower-case an ASCII letter code point, identity elsewhere. -/
def lowCh (n : Nat) : Nat := if isUpperA n then n + 32 else n

/-- Upper-case an ASCII letter code point, identity elsewhere. -/
def upCh (n : Nat) : Nat := if isLowerA n then n - 32 else n

/-- One character step of `str.title()`: a letter is upper-cased when the
previous character was not a letter, lower-cased otherwise; every other
character passes through. `b` records whether the previous character was a
letter. -/
def titleChar (b : Bool) (c : Nat) : Nat :=
  if isAlphaA c then (if b then lowCh c else upCh c) else c

/-- Tail of `str.title()` given whether the previous character was a letter. -/
def pyTitleAux (b : Bool) : List Nat → List Nat
  | [] => []
  | c :: cs => titleChar b c :: pyTitleAux (isAlphaA c) cs

/-- Python's `str.title()` on ASCII: the first letter of every maximal run
of letters is upper-cased, the rest lower-cased. -/
def pyTitle (s : List Nat) : List Nat := pyTitleAux false s

/-- Python's `str.strip()`: remove leading and trailing whitespace. -/
def pyStrip (s : List Nat) : List Nat :=
  (((s.dropWhile (fun c => isWs c)).reverse.dropWhile (fun c => isWs c))).reverse

/-- Tail of `re.sub(r'\s+', ' ', s)` given whether the previous character
was whitespace: each maximal whitespace run becomes one space. -/
def collapseAux (b : Bool) : List Nat → List Nat
  | [] => []
  | c :: cs =>
    if isWs c then
      (if b then collapseAux true cs else 32 :: collapseAux true cs)
    else c :: collapseAux false cs

/-- Python's `re.sub(r'\s+', ' ', s)`: collapse every whitespace run to a
single space. -/
def collapseWs (s : List Nat) : List Nat := collapseAux false s

/-- Python's `re.sub(r'[.,;!?]+$', '', s)`: remove the maximal trailing run
of terminator punctuation. -/
def stripTrailingPunct (s : List Nat) : List Nat :=
  (s.reverse.dropWhile (fun c => isPunct c)).reverse

/-- `ResearchFieldExtractor.clean_interest`: empty input is returned as is
(`if not interest: return ""`); otherwise whitespace is stripped and
collapsed, trailing terminator punctuation removed, and the result
title-cased. -/
def clean_interest (s : List Nat) : List Nat :=
  if s = [] then []
  else pyTitle (stripTrailingPunct (collapseWs (pyStrip s)))

/-! ## Data model

An author record as read from the input JSON.  The dynamically typed JSON
values that the engine inspects are embedded as small sum types: a metric
(`hindex` / `i10index`) may be absent, an integer, or a string that
`int(...)` must coerce; `profile_interests` may be absent, a list of
strings, or (malformed input) a plain string, which Python's `for` loop
iterates character by character. -/

/-- Value of the `hindex` / `i10index` key of an author record. -/
inductive MetricVal where
  | absent
  | vint (n : Int)
  | vstr (s : List Nat)
deriving DecidableEq

/-- Value of the `profile_interests` key of an author record. -/
inductive Interests where
  | absent
  | ofList (l : List (List Nat))
  | ofStr (s : List Nat)
deriving DecidableEq

/-- One element of the input array of author objects. -/
structure Author where
  profile_name : Option (List Nat)
  profile_affiliations : Option (List Nat)
  profile_interests : Interests
  hindex : MetricVal
  i10index : MetricVal
deriving DecidableEq

/-- One element of the `authors` list of a field's statistics. -/
structure Entry where
  name : List Nat
  affiliation : List Nat
  hindex : Int
  i10index : Int
deriving DecidableEq

/-- The per-field statistics dictionary built by
`calculate_field_statistics`.  The two averages — Python floats produced
by `round(sum/len, 2)` — are embedded in hundredths: the stored integer is
`100 * round(sum/len, 2)`, an order-isomorphic exact representation. -/
structure FieldStats where
  count : Nat
  average_h_index : Int
  average_i10_index : Int
  max_h_index : Int
  min_h_index : Int
  max_i10_index : Int
  min_i10_index : Int
  total_h_index : Int
  total_i10_index : Int
  authors : List Entry
deriving DecidableEq

/-- The `summary` sub-dictionary of the results. -/
structure Summary where
  top_field_by_avg_h_index : Option (List Nat × FieldStats)
  most_popular_field : Option (List Nat × FieldStats)
  field_with_highest_max_h_index : Option (List Nat × FieldStats)
deriving DecidableEq

/-- The results dictionary of `process_authors_file`.  Python dicts keep
insertion order, so `research_fields_statistics` is an ordered association
list. -/
structure Results where
  research_fields_statistics : List (List Nat × FieldStats)
  total_authors : Nat
  total_unique_fields : Nat
  summary : Summary
deriving DecidableEq

/-! ## Dynamic-value helpers -/

/-- Digit value of an ASCII code point. -/
def digitVal (c : Nat) : Option Nat :=
  if 48 ≤ c ∧ c ≤ 57 then some (c - 48) else none

/-- Accumulating decimal parse of a run of digit code points. -/
def parseDigitsAux (acc : Nat) : List Nat → Option Nat
  | [] => some acc
  | c :: cs =>
    match digitVal c with
    | some d => parseDigitsAux (acc * 10 + d) cs
    | none => none

/-- Nonempty all-digits decimal parse. -/
def parseDigits : List Nat → Option Nat
  | [] => none
  | c :: cs => parseDigitsAux 0 (c :: cs)

/-- Python's `int(s)` on a string: surrounding whitespace is allowed, then
an optional sign and a nonempty digit run; anything else raises
`ValueError`, embedded as `none`. -/
def parseIntPy (s : List Nat) : Option Int :=
  match pyStrip s with
  | 43 :: rest => (parseDigits rest).map (fun n => (n : Int))
  | 45 :: rest => (parseDigits rest).map (fun n => -(n : Int))
  | t => (parseDigits t).map (fun n => (n : Int))

/-- `int(author.get('hindex', 0))`: a missing key defaults to `0`, an
integer passes through, a string is coerced and may fail. -/
def pyIntM : MetricVal → Option Int
  | .absent => some 0
  | .vint n => some n
  | .vstr s => parseIntPy s

/-- The sequence of raw interest strings that the loops
`interests = author.get('profile_interests', []); if interests: for interest in interests:`
actually traverse: a missing key or an empty (falsy) value yields nothing,
a list its elements, and a plain string its characters as one-character
strings. -/
def iterInterests : Interests → List (List Nat)
  | .absent => []
  | .ofList l => l
  | .ofStr s => s.map (fun c => [c])

/-! ## Aggregation engine -/

/-- Insertion step of the `unique_interests` set: normalize one raw
interest, discard an empty normalization, and record a new label.  The
Python `set` is embedded as a duplicate-free list in first-insertion
order (CPython's set iteration order is unspecified). -/
def addLabel (acc : List (List Nat)) (r : List Nat) : List (List Nat) :=
  let c := clean_interest r
  if c = [] then acc else if c ∈ acc then acc else acc ++ [c]

/-- `ResearchFieldExtractor.extract_unique_interests`. -/
def extract_unique_interests (authors : List Author) : List (List Nat) :=
  authors.foldl (fun acc a => (iterInterests a.profile_interests).foldl addLabel acc) []

/-- Test of the inner loop of `calculate_field_statistics`: does some raw
interest of this author normalize to the field label `f`? -/
def matchesField (a : Author) (f : List Nat) : Bool :=
  (iterInterests a.profile_interests).any (fun r => clean_interest r == f)

/-- The author dictionary appended to `authors_in_field`, built with the
two `int(...)` coercions; `none` embeds the uncaught `ValueError`. -/
def authorEntry (a : Author) : Option Entry :=
  match pyIntM a.hindex, pyIntM a.i10index with
  | some h, some i =>
    some { name := a.profile_name.getD (pystr "N/A"),
           affiliation := a.profile_affiliations.getD (pystr "N/A"),
           hindex := h, i10index := i }
  | _, _ => none

/-- The `authors_in_field` list for one field label: every author whose
interests contain a match is included once (the `break` after the first
matching raw interest), in input order. -/
def fieldMembers (f : List Nat) : List Author → Option (List Entry)
  | [] => some []
  | a :: rest =>
    if matchesField a f then
      match authorEntry a, fieldMembers f rest with
      | some e, some es => some (e :: es)
      | _, _ => none
    else fieldMembers f rest

/-- Maximum of a nonempty list via Python's `max`. -/
def listMaxI : List Int → Int
  | [] => 0
  | x :: xs => xs.foldl max x

/-- Minimum of a nonempty list via Python's `min`. -/
def listMinI : List Int → Int
  | [] => 0
  | x :: xs => xs.foldl min x

/-- Python's `round(num/den, 2)` in hundredths for `den > 0`: the nearest
integer to `100*num/den`, halves to even (Python's rounding policy). -/
def roundDivX100 (num : Int) (den : Int) : Int :=
  let a := num * 100
  let f := Int.fdiv a den
  let r := a - f * den
  if 2 * r < den then f
  else if 2 * r > den then f + 1
  else if f % 2 = 0 then f else f + 1

/-- Stable descending insertion by a key: `x` is placed before the first
element whose key is not larger, so earlier input stays first among equal
keys. -/
def insD {α β : Type} [LinearOrder β] (key : α → β) (x : α) : List α → List α
  | [] => [x]
  | y :: ys => if key y ≤ key x then x :: y :: ys else y :: insD key x ys

/-- Python's stable `sorted(..., key=..., reverse=True)`: stable descending
sort by a key (any stable sort computes this unique result). -/
def sortD {α β : Type} [LinearOrder β] (key : α → β) (l : List α) : List α :=
  l.foldr (insD key) []

/-- The statistics dictionary literal of `calculate_field_statistics`,
computed from the collected member entries. -/
def mkStats (ms : List Entry) : FieldStats :=
  let hs : List Int := ms.map (fun e => e.hindex)
  let is : List Int := ms.map (fun e => e.i10index)
  { count := ms.length
    average_h_index := roundDivX100 hs.sum (ms.length : Int)
    average_i10_index := roundDivX100 is.sum (ms.length : Int)
    max_h_index := listMaxI hs
    min_h_index := listMinI hs
    max_i10_index := listMaxI is
    min_i10_index := listMinI is
    total_h_index := hs.sum
    total_i10_index := is.sum
    authors := sortD (fun e => e.hindex) ms }

/-- `ResearchFieldExtractor.calculate_field_statistics`: one entry per
unique interest with at least one member (`if h_indices:`), keyed in the
iteration order of the set of unique interests; `none` embeds an uncaught
`ValueError` from a metric coercion. -/
def calculate_field_statistics (authors : List Author) : List (List Nat) → Option (List (List Nat × FieldStats))
  | [] => some []
  | f :: fs =>
    match fieldMembers f authors with
    | none => none
    | some [] => calculate_field_statistics authors fs
    | some (m :: ms) =>
      match calculate_field_statistics authors fs with
      | none => none
      | some rest => some ((f, mkStats (m :: ms)) :: rest)

/-- Python's `max(items, key=...)`: first maximal element of a nonempty
list, `None` (here `none`) when the guard `if field_stats` fails. -/
def pyMax {α β : Type} [LinearOrder β] (key : α → β) : List α → Option α
  | [] => none
  | x :: xs => some (xs.foldl (fun b y => if key b < key y then y else b) x)

/-- The in-memory computation of `process_authors_file` after a successful
load: extract the unique interests, build the per-field statistics, sort
them by descending rounded average h-index for export, and attach the
summary (whose maxima scan the unsorted insertion-ordered dict
`field_stats.items()`). -/
def computeResults (authors : List Author) : Option Results :=
  match calculate_field_statistics authors (extract_unique_interests authors) with
  | none => none
  | some fs =>
    some { research_fields_statistics := sortD (fun p => p.2.average_h_index) fs
           total_authors := authors.length
           total_unique_fields := fs.length
           summary :=
             { top_field_by_avg_h_index := pyMax (fun p => p.2.average_h_index) fs
               most_popular_field := pyMax (fun p => p.2.count) fs
               field_with_highest_max_h_index := pyMax (fun p => p.2.max_h_index) fs } }

/-- State of the input file named by `input_file`. -/
inductive InputFile where
  | missing
  | badJson
  | ok (authors : List Author)

/-- `ResearchFieldExtractor.process_authors_file`.  The value is
`some (result, wrote)` where `result` is `none` for the `return {}` of the
two handled load errors and `wrote` says whether an output file was
written; the outer `none` embeds an exception escaping the function (the
uncaught `ValueError` of a metric coercion), which also writes nothing. -/
def process_authors_file (inp : InputFile) (outputRequested : Bool) : Option (Option Results × Bool) :=
  match inp with
  | .missing => some (none, false)
  | .badJson => some (none, false)
  | .ok authors =>
    match computeResults authors with
    | none => none
    | some r => some (some r, outputRequested)

/-! ## Derived definitions used by the verification -/

/-- Normal form left by `collapseWs`: every whitespace character is the
single space 32 and is never followed by another whitespace character. -/
def wsOk : List Nat → Bool
  | [] => true
  | [c] => !isWs c || c == 32
  | c :: d :: rest => (!isWs c || (c == 32 && !isWs d)) && wsOk (d :: rest)

/-- The string `cleaned` of `clean_interest` just before `.title()`. -/
def cleanCore (s : List Nat) : List Nat := stripTrailingPunct (collapseWs (pyStrip s))

/-- Decidable trailing-whitespace test used to state the amended
idempotence property. -/
def noTrailWs (l : List Nat) : Bool :=
  match l.getLast? with
  | none => true
  | some c => !isWs c

/-- Case-folded canonical key: two raw strings get the same
`clean_interest` output exactly when their `cleaned` strings agree up to
letter case. -/
def lowerKey (s : List Nat) : List Nat := (cleanCore s).map lowCh

/-- Modelled from the spec: two raw strings "differ only in whitespace
run-length, surrounding punctuation, or letter case" when they agree
after collapsing/stripping whitespace, removing terminator punctuation at
both ends (surrounding = leading and trailing), and folding letter
case. -/
def specSurroundKey (s : List Nat) : List Nat :=
  (stripTrailingPunct ((collapseWs (pyStrip s)).dropWhile (fun c => isPunct c))).map lowCh

/-! ## Concrete instances used by the claim theorems -/

/-- Author listing the same field twice under different spellings. -/
def wA1 : Author :=
  ⟨some (pystr "Alice"), some (pystr "X"), .ofList [pystr "AI", pystr "ai."], .vint 5, .vint 2⟩

/-- Author with a single interest and missing affiliation. -/
def wA2 : Author :=
  ⟨some (pystr "Bob"), none, .ofList [pystr "ML"], .vint 7, .vint 3⟩

/-- Two-author input exercising deduplication and field ordering. -/
def wAuthors : List Author := [wA1, wA2]

/-- Reduced record of `wA1` in its field's author list. -/
def wEntry1 : Entry := ⟨pystr "Alice", pystr "X", 5, 2⟩

/-- Reduced record of `wA2` in its field's author list. -/
def wEntry2 : Entry := ⟨pystr "Bob", pystr "N/A", 7, 3⟩

/-- Statistics of field "Ai" of `wAuthors`. -/
def wStatsAi : FieldStats := ⟨1, 500, 200, 5, 5, 2, 2, 5, 2, [wEntry1]⟩

/-- Statistics of field "Ml" of `wAuthors`. -/
def wStatsMl : FieldStats := ⟨1, 700, 300, 7, 7, 3, 3, 7, 3, [wEntry2]⟩

/-- Full results of running the engine on `wAuthors`. -/
def wResults : Results :=
  ⟨[(pystr "Ml", wStatsMl), (pystr "Ai", wStatsAi)], 2, 2,
    ⟨some (pystr "Ml", wStatsMl), some (pystr "Ai", wStatsAi), some (pystr "Ml", wStatsMl)⟩⟩

/-- Author whose `hindex` is a string that `int(...)` cannot coerce. -/
def badMetricAuthor : Author :=
  ⟨some (pystr "X"), none, .ofList [pystr "AI"], .vstr (pystr "abc"), .vint 3⟩

/-- Author whose `profile_interests` is the plain (non-list) string "AI". -/
def strInterestsAuthor : Author :=
  ⟨some (pystr "S"), none, .ofStr (pystr "AI"), .vint 4, .vint 1⟩

/-- Author with no `profile_interests` key at all. -/
def emptyInterestsAuthor : Author := ⟨some (pystr "E"), none, .absent, .vint 9, .vint 9⟩

/-! ## Character-level lemmas -/

theorem isUpperA_iff {c : Nat} : isUpperA c = true ↔ 65 ≤ c ∧ c ≤ 90 := by
  simp [isUpperA]

theorem isLowerA_iff {c : Nat} : isLowerA c = true ↔ 97 ≤ c ∧ c ≤ 122 := by
  simp [isLowerA]

theorem isAlphaA_iff {c : Nat} :
    isAlphaA c = true ↔ (65 ≤ c ∧ c ≤ 90) ∨ (97 ≤ c ∧ c ≤ 122) := by
  simp [isAlphaA, isUpperA, isLowerA]

theorem isWs_iff {c : Nat} :
    isWs c = true ↔ c = 32 ∨ c = 9 ∨ c = 10 ∨ c = 13 ∨ c = 11 ∨ c = 12 := by
  simp only [isWs, Bool.or_eq_true, beq_iff_eq]
  tauto

theorem isPunct_iff {c : Nat} :
    isPunct c = true ↔ c = 46 ∨ c = 44 ∨ c = 59 ∨ c = 33 ∨ c = 63 := by
  simp only [isPunct, Bool.or_eq_true, beq_iff_eq]
  tauto

theorem lowCh_pos {c : Nat} (h : 65 ≤ c ∧ c ≤ 90) : lowCh c = c + 32 := by
  simp only [lowCh, isUpperA, decide_eq_true_eq]
  rw [if_pos h]

theorem lowCh_neg {c : Nat} (h : ¬(65 ≤ c ∧ c ≤ 90)) : lowCh c = c := by
  simp only [lowCh, isUpperA, decide_eq_true_eq]
  rw [if_neg h]

theorem upCh_pos {c : Nat} (h : 97 ≤ c ∧ c ≤ 122) : upCh c = c - 32 := by
  simp only [upCh, isLowerA, decide_eq_true_eq]
  rw [if_pos h]

theorem upCh_neg {c : Nat} (h : ¬(97 ≤ c ∧ c ≤ 122)) : upCh c = c := by
  simp only [upCh, isLowerA, decide_eq_true_eq]
  rw [if_neg h]

theorem isWs_not_alpha {c : Nat} (h : isWs c = true) : isAlphaA c = false := by
  rw [isWs_iff] at h
  rw [Bool.eq_false_iff]
  intro ha
  rw [isAlphaA_iff] at ha
  omega

theorem isPunct_not_alpha {c : Nat} (h : isPunct c = true) : isAlphaA c = false := by
  rw [isPunct_iff] at h
  rw [Bool.eq_false_iff]
  intro ha
  rw [isAlphaA_iff] at ha
  omega

theorem isAlphaA_lowCh (c : Nat) : isAlphaA (lowCh c) = isAlphaA c := by
  by_cases h : 65 ≤ c ∧ c ≤ 90
  · rw [lowCh_pos h]
    have h1 : isAlphaA (c + 32) = true := by rw [isAlphaA_iff]; omega
    have h2 : isAlphaA c = true := by rw [isAlphaA_iff]; omega
    rw [h1, h2]
  · rw [lowCh_neg h]

theorem isAlphaA_upCh (c : Nat) : isAlphaA (upCh c) = isAlphaA c := by
  by_cases h : 97 ≤ c ∧ c ≤ 122
  · rw [upCh_pos h]
    have h1 : isAlphaA (c - 32) = true := by rw [isAlphaA_iff]; omega
    have h2 : isAlphaA c = true := by rw [isAlphaA_iff]; omega
    rw [h1, h2]
  · rw [upCh_neg h]

theorem lowCh_of_not_alpha {c : Nat} (h : isAlphaA c = false) : lowCh c = c := by
  rw [Bool.eq_false_iff] at h
  rw [lowCh_neg]
  intro hc
  exact h (isAlphaA_iff.mpr (Or.inl hc))

theorem upCh_of_not_alpha {c : Nat} (h : isAlphaA c = false) : upCh c = c := by
  rw [Bool.eq_false_iff] at h
  rw [upCh_neg]
  intro hc
  exact h (isAlphaA_iff.mpr (Or.inr hc))

theorem lowCh_lowCh (c : Nat) : lowCh (lowCh c) = lowCh c := by
  by_cases h : 65 ≤ c ∧ c ≤ 90
  · rw [lowCh_pos h, lowCh_neg (by omega)]
  · rw [lowCh_neg h, lowCh_neg h]

theorem upCh_upCh (c : Nat) : upCh (upCh c) = upCh c := by
  by_cases h : 97 ≤ c ∧ c ≤ 122
  · rw [upCh_pos h, upCh_neg (by omega)]
  · rw [upCh_neg h, upCh_neg h]

theorem upCh_lowCh (c : Nat) : upCh (lowCh c) = upCh c := by
  by_cases h : 65 ≤ c ∧ c ≤ 90
  · rw [lowCh_pos h, upCh_pos (by omega), upCh_neg (by omega)]
    omega
  · rw [lowCh_neg h]

theorem lowCh_upCh (c : Nat) : lowCh (upCh c) = lowCh c := by
  by_cases h : 97 ≤ c ∧ c ≤ 122
  · rw [upCh_pos h, lowCh_pos (by omega), lowCh_neg (by omega)]
    omega
  · rw [upCh_neg h]

theorem lowCh_inj_alpha {c d : Nat} (h : lowCh c = lowCh d) : isAlphaA c = isAlphaA d := by
  by_cases hc : 65 ≤ c ∧ c ≤ 90 <;> by_cases hd : 65 ≤ d ∧ d ≤ 90
  · rw [lowCh_pos hc, lowCh_pos hd] at h
    have e : c = d := by omega
    rw [e]
  · rw [lowCh_pos hc, lowCh_neg hd] at h
    have h1 : isAlphaA c = true := isAlphaA_iff.mpr (Or.inl hc)
    have h2 : isAlphaA d = true := isAlphaA_iff.mpr (Or.inr (by omega))
    rw [h1, h2]
  · rw [lowCh_neg hc, lowCh_pos hd] at h
    have h1 : isAlphaA c = true := isAlphaA_iff.mpr (Or.inr (by omega))
    have h2 : isAlphaA d = true := isAlphaA_iff.mpr (Or.inl hd)
    rw [h1, h2]
  · rw [lowCh_neg hc, lowCh_neg hd] at h
    rw [h]

theorem upCh_eq_of_lowCh_eq {c d : Nat} (h : lowCh c = lowCh d) : upCh c = upCh d := by
  by_cases hc : 65 ≤ c ∧ c ≤ 90 <;> by_cases hd : 65 ≤ d ∧ d ≤ 90
  · rw [lowCh_pos hc, lowCh_pos hd] at h
    have e : c = d := by omega
    rw [e]
  · rw [lowCh_pos hc, lowCh_neg hd] at h
    rw [upCh_neg (by omega), upCh_pos (by omega)]
    omega
  · rw [lowCh_neg hc, lowCh_pos hd] at h
    rw [upCh_pos (by omega), upCh_neg (by omega)]
    omega
  · rw [lowCh_neg hc, lowCh_neg hd] at h
    rw [h]

theorem isWs_lowCh (c : Nat) : isWs (lowCh c) = isWs c := by
  by_cases h : 65 ≤ c ∧ c ≤ 90
  · rw [lowCh_pos h]
    have h1 : isWs (c + 32) = false := by
      rw [Bool.eq_false_iff]; intro hw; rw [isWs_iff] at hw; omega
    have h2 : isWs c = false := by
      rw [Bool.eq_false_iff]; intro hw; rw [isWs_iff] at hw; omega
    rw [h1, h2]
  · rw [lowCh_neg h]

theorem isWs_upCh (c : Nat) : isWs (upCh c) = isWs c := by
  by_cases h : 97 ≤ c ∧ c ≤ 122
  · rw [upCh_pos h]
    have h1 : isWs (c - 32) = false := by
      rw [Bool.eq_false_iff]; intro hw; rw [isWs_iff] at hw; omega
    have h2 : isWs c = false := by
      rw [Bool.eq_false_iff]; intro hw; rw [isWs_iff] at hw; omega
    rw [h1, h2]
  · rw [upCh_neg h]

theorem isPunct_lowCh (c : Nat) : isPunct (lowCh c) = isPunct c := by
  by_cases h : 65 ≤ c ∧ c ≤ 90
  · rw [lowCh_pos h]
    have h1 : isPunct (c + 32) = false := by
      rw [Bool.eq_false_iff]; intro hw; rw [isPunct_iff] at hw; omega
    have h2 : isPunct c = false := by
      rw [Bool.eq_false_iff]; intro hw; rw [isPunct_iff] at hw; omega
    rw [h1, h2]
  · rw [lowCh_neg h]

theorem isPunct_upCh (c : Nat) : isPunct (upCh c) = isPunct c := by
  by_cases h : 97 ≤ c ∧ c ≤ 122
  · rw [upCh_pos h]
    have h1 : isPunct (c - 32) = false := by
      rw [Bool.eq_false_iff]; intro hw; rw [isPunct_iff] at hw; omega
    have h2 : isPunct c = false := by
      rw [Bool.eq_false_iff]; intro hw; rw [isPunct_iff] at hw; omega
    rw [h1, h2]
  · rw [upCh_neg h]

theorem isWs_titleChar (b : Bool) (c : Nat) : isWs (titleChar b c) = isWs c := by
  unfold titleChar
  split
  · cases b <;> simp [isWs_lowCh, isWs_upCh]
  · rfl

theorem isPunct_titleChar (b : Bool) (c : Nat) : isPunct (titleChar b c) = isPunct c := by
  unfold titleChar
  split
  · cases b <;> simp [isPunct_lowCh, isPunct_upCh]
  · rfl

theorem isAlphaA_titleChar (b : Bool) (c : Nat) : isAlphaA (titleChar b c) = isAlphaA c := by
  unfold titleChar
  split
  · cases b <;> simp [isAlphaA_lowCh, isAlphaA_upCh]
  · rfl

theorem titleChar_of_ws {c : Nat} (b : Bool) (h : isWs c = true) : titleChar b c = c := by
  unfold titleChar
  rw [isWs_not_alpha h]
  simp

theorem titleChar_titleChar (b : Bool) (c : Nat) : titleChar b (titleChar b c) = titleChar b c := by
  unfold titleChar
  split
  · rename_i ha
    cases b <;> simp [isAlphaA_lowCh, isAlphaA_upCh, ha, lowCh_lowCh, upCh_upCh]
  · rename_i ha
    simp only [Bool.not_eq_true] at ha
    simp [ha]

theorem titleChar_congr {b : Bool} {c d : Nat} (h : lowCh c = lowCh d) :
    titleChar b c = titleChar b d := by
  unfold titleChar
  rw [lowCh_inj_alpha h]
  split
  · cases b
    · simp [upCh_eq_of_lowCh_eq h]
    · simp [h]
  · rename_i ha
    simp only [Bool.not_eq_true] at ha
    have hc : isAlphaA c = false := by rw [lowCh_inj_alpha h]; exact ha
    calc c = lowCh c := (lowCh_of_not_alpha hc).symm
    _ = lowCh d := h
    _ = d := lowCh_of_not_alpha ha

/-! ## Title-casing lemmas -/

theorem pyTitleAux_map_inv (p : Nat → Bool) (hp : ∀ b c, p (titleChar b c) = p c) :
    ∀ (b : Bool) (l : List Nat), (pyTitleAux b l).map p = l.map p := by
  intro b l
  induction l generalizing b with
  | nil => rfl
  | cons c cs ih => simp [pyTitleAux, hp, ih]

theorem pyTitleAux_idem : ∀ (b : Bool) (l : List Nat),
    pyTitleAux b (pyTitleAux b l) = pyTitleAux b l := by
  intro b l
  induction l generalizing b with
  | nil => rfl
  | cons c cs ih =>
    simp only [pyTitleAux, titleChar_titleChar, isAlphaA_titleChar]
    rw [ih]

theorem pyTitleAux_congr : ∀ (b : Bool) (l m : List Nat),
    l.map lowCh = m.map lowCh → pyTitleAux b l = pyTitleAux b m := by
  intro b l
  induction l generalizing b with
  | nil => intro m h; cases m <;> simp_all [pyTitleAux]
  | cons c cs ih =>
    intro m h
    cases m with
    | nil => simp_all
    | cons d ds =>
      simp only [List.map_cons, List.cons.injEq] at h
      obtain ⟨h1, h2⟩ := h
      simp only [pyTitleAux, titleChar_congr h1, lowCh_inj_alpha h1, ih (isAlphaA d) ds h2]

/-! ## Whitespace and trimming structure lemmas -/

theorem head?_some_of_dropWhile {p : Nat → Bool} {l : List Nat} {d : Nat}
    (h : (l.dropWhile p).head? = some d) : p d = false := by
  have := List.head?_dropWhile_not p l
  rw [h] at this
  exact this

theorem head?_append_left {l t : List Nat} (h : l ≠ []) : (l ++ t).head? = l.head? := by
  cases l with
  | nil => exact absurd rfl h
  | cons c cs => rfl

theorem revDropRev_decomp (p : Nat → Bool) (l : List Nat) :
    l = (l.reverse.dropWhile p).reverse ++ (l.reverse.takeWhile p).reverse := by
  conv_lhs => rw [← l.reverse_reverse]
  conv_lhs => rw [← List.takeWhile_append_dropWhile (p := p) (l := l.reverse)]
  rw [List.reverse_append]

theorem dropWhile_eq_self_of_head {p : Nat → Bool} {l : List Nat}
    (h : ∀ d, l.head? = some d → p d = false) : l.dropWhile p = l := by
  cases l with
  | nil => rfl
  | cons c cs =>
    rw [List.dropWhile_cons, h c rfl]
    simp

theorem pyStrip_eq_self {l : List Nat}
    (hh : ∀ d, l.head? = some d → isWs d = false)
    (hl : ∀ d, l.getLast? = some d → isWs d = false) : pyStrip l = l := by
  unfold pyStrip
  rw [dropWhile_eq_self_of_head hh]
  rw [dropWhile_eq_self_of_head (fun d hd => hl d (by rw [← List.head?_reverse]; exact hd))]
  exact l.reverse_reverse

theorem stripTrailingPunct_eq_self {l : List Nat}
    (hl : ∀ d, l.getLast? = some d → isPunct d = false) : stripTrailingPunct l = l := by
  unfold stripTrailingPunct
  rw [dropWhile_eq_self_of_head (fun d hd => hl d (by rw [← List.head?_reverse]; exact hd))]
  exact l.reverse_reverse

theorem stripTrailingPunct_decomp (l : List Nat) :
    l = stripTrailingPunct l ++ (l.reverse.takeWhile (fun c => isPunct c)).reverse :=
  revDropRev_decomp (fun c => isPunct c) l

theorem pyStrip_head_not_ws {s : List Nat} {d : Nat}
    (h : (pyStrip s).head? = some d) : isWs d = false := by
  have hne : pyStrip s ≠ [] := by
    intro he
    rw [he] at h
    exact Option.noConfusion h
  have hdec := revDropRev_decomp (fun c => isWs c) (s.dropWhile (fun c => isWs c))
  have hu : (s.dropWhile (fun c => isWs c)).head? = some d := by
    rw [hdec,
      show (List.dropWhile (fun c => isWs c) (List.dropWhile (fun c => isWs c) s).reverse).reverse
        = pyStrip s from rfl,
      head?_append_left hne]
    exact h
  exact head?_some_of_dropWhile hu

theorem pyStrip_getLast_not_ws {s : List Nat} {d : Nat}
    (h : (pyStrip s).getLast? = some d) : isWs d = false := by
  unfold pyStrip at h
  rw [List.getLast?_reverse] at h
  exact head?_some_of_dropWhile h

theorem stripTrailingPunct_getLast_not_punct {l : List Nat} {d : Nat}
    (h : (stripTrailingPunct l).getLast? = some d) : isPunct d = false := by
  unfold stripTrailingPunct at h
  rw [List.getLast?_reverse] at h
  exact head?_some_of_dropWhile h

theorem collapseAux_true_head : ∀ (l : List Nat) (d : Nat),
    (collapseAux true l).head? = some d → isWs d = false := by
  intro l
  induction l with
  | nil => intro d h; exact Option.noConfusion h
  | cons c cs ih =>
    intro d h
    by_cases hw : isWs c = true
    · rw [show collapseAux true (c :: cs) = collapseAux true cs by
        simp [collapseAux, hw]] at h
      exact ih d h
    · rw [show collapseAux true (c :: cs) = c :: collapseAux false cs by
        simp [collapseAux, hw]] at h
      rw [List.head?_cons, Option.some.injEq] at h
      rw [← h]
      simpa using hw

theorem collapseAux_head_of_not_ws {v : List Nat} {c : Nat} {cs : List Nat}
    (hv : v = c :: cs) (hw : isWs c = false) :
    collapseAux false v = c :: collapseAux false cs := by
  rw [hv]
  simp [collapseAux, hw]

theorem wsOk_tail {c : Nat} {l : List Nat} (h : wsOk (c :: l) = true) : wsOk l = true := by
  cases l with
  | nil => rfl
  | cons d ds =>
    rw [show wsOk (c :: d :: ds) = ((!isWs c || (c == 32 && !isWs d)) && wsOk (d :: ds)) from rfl,
      Bool.and_eq_true] at h
    exact h.2

theorem wsOk_cons_of {c : Nat} {l : List Nat} (ht : wsOk l = true)
    (hc : isWs c = false ∨ (c = 32 ∧ ∀ d, l.head? = some d → isWs d = false)) :
    wsOk (c :: l) = true := by
  cases l with
  | nil =>
    rw [show wsOk [c] = (!isWs c || c == 32) from rfl, Bool.or_eq_true]
    rcases hc with h | ⟨h32, _⟩
    · exact Or.inl (by simp [h])
    · exact Or.inr (by simp [h32])
  | cons d ds =>
    rw [show wsOk (c :: d :: ds) = ((!isWs c || (c == 32 && !isWs d)) && wsOk (d :: ds)) from rfl,
      Bool.and_eq_true]
    refine ⟨?_, ht⟩
    rw [Bool.or_eq_true]
    rcases hc with h | ⟨h32, hd⟩
    · exact Or.inl (by simp [h])
    · refine Or.inr ?_
      rw [Bool.and_eq_true]
      exact ⟨by simp [h32], by simp [hd d rfl]⟩

theorem wsOk_collapseAux : ∀ (l : List Nat) (b : Bool), wsOk (collapseAux b l) = true := by
  intro l
  induction l with
  | nil => intro b; rfl
  | cons c cs ih =>
    intro b
    by_cases hw : isWs c = true
    · cases b with
      | true =>
        rw [show collapseAux true (c :: cs) = collapseAux true cs by simp [collapseAux, hw]]
        exact ih true
      | false =>
        rw [show collapseAux false (c :: cs) = 32 :: collapseAux true cs by
          simp [collapseAux, hw]]
        exact wsOk_cons_of (ih true) (Or.inr ⟨rfl, fun d hd => collapseAux_true_head cs d hd⟩)
    · rw [Bool.not_eq_true] at hw
      have he : collapseAux b (c :: cs) = c :: collapseAux false cs := by
        simp [collapseAux, hw]
      rw [he]
      exact wsOk_cons_of (ih false) (Or.inl hw)

theorem collapseAux_true_eq_false {l : List Nat}
    (h : ∀ d, l.head? = some d → isWs d = false) :
    collapseAux true l = collapseAux false l := by
  cases l with
  | nil => rfl
  | cons c cs => simp [collapseAux, h c rfl]

theorem collapseAux_id : ∀ (l : List Nat), wsOk l = true → collapseAux false l = l := by
  intro l
  induction l with
  | nil => intro _; rfl
  | cons c cs ih =>
    intro h
    by_cases hw : isWs c = true
    · have hcs : c = 32 ∧ ∀ d, cs.head? = some d → isWs d = false := by
        cases cs with
        | nil =>
          rw [show wsOk [c] = (!isWs c || c == 32) from rfl, hw] at h
          simp only [Bool.not_true, Bool.false_or, beq_iff_eq] at h
          exact ⟨h, fun d hd => Option.noConfusion hd⟩
        | cons d ds =>
          rw [show wsOk (c :: d :: ds) = ((!isWs c || (c == 32 && !isWs d)) && wsOk (d :: ds)) from rfl,
            hw, Bool.and_eq_true] at h
          simp only [Bool.not_true, Bool.false_or, Bool.and_eq_true, beq_iff_eq,
            Bool.not_eq_true'] at h
          exact ⟨h.1.1, fun e he => by
            rw [List.head?_cons, Option.some.injEq] at he
            rw [← he]
            exact h.1.2⟩
      rw [show collapseAux false (c :: cs) = 32 :: collapseAux true cs by simp [collapseAux, hw]]
      rw [collapseAux_true_eq_false hcs.2, ih (wsOk_tail h), hcs.1]
    · rw [Bool.not_eq_true] at hw
      rw [show collapseAux false (c :: cs) = c :: collapseAux false cs by simp [collapseAux, hw]]
      rw [ih (wsOk_tail h)]

theorem wsOk_append_left : ∀ (l t : List Nat), wsOk (l ++ t) = true → wsOk l = true := by
  intro l
  induction l with
  | nil => intro t _; rfl
  | cons c cs ih =>
    intro t h
    cases cs with
    | nil =>
      cases t with
      | nil => exact h
      | cons d ds =>
        rw [show ([c] ++ d :: ds) = c :: d :: ds from rfl,
          show wsOk (c :: d :: ds) = ((!isWs c || (c == 32 && !isWs d)) && wsOk (d :: ds)) from rfl,
          Bool.and_eq_true] at h
        rw [show wsOk [c] = (!isWs c || c == 32) from rfl]
        rcases Bool.or_eq_true_iff.mp h.1 with h1 | h1
        · rw [h1]; rfl
        · rw [Bool.and_eq_true] at h1
          rw [h1.1]
          simp
    | cons d ds =>
      rw [show (c :: d :: ds) ++ t = c :: d :: (ds ++ t) from rfl,
        show wsOk (c :: d :: (ds ++ t)) = ((!isWs c || (c == 32 && !isWs d)) && wsOk (d :: (ds ++ t))) from rfl,
        Bool.and_eq_true] at h
      rw [show wsOk (c :: d :: ds) = ((!isWs c || (c == 32 && !isWs d)) && wsOk (d :: ds)) from rfl,
        Bool.and_eq_true]
      exact ⟨h.1, ih t h.2⟩

theorem wsOk_pyTitleAux : ∀ (l : List Nat) (b : Bool),
    wsOk l = true → wsOk (pyTitleAux b l) = true := by
  intro l
  induction l with
  | nil => intro b _; rfl
  | cons c cs ih =>
    intro b h
    rw [show pyTitleAux b (c :: cs) = titleChar b c :: pyTitleAux (isAlphaA c) cs from rfl]
    cases cs with
    | nil =>
      rw [show wsOk [c] = (!isWs c || c == 32) from rfl] at h
      rw [show pyTitleAux (isAlphaA c) [] = [] from rfl,
        show wsOk [titleChar b c] = (!isWs (titleChar b c) || titleChar b c == 32) from rfl,
        isWs_titleChar]
      rcases Bool.or_eq_true_iff.mp h with h1 | h1
      · rw [h1]; rfl
      · simp only [beq_iff_eq] at h1
        have : titleChar b c = 32 := by
          rw [h1] at *
          exact titleChar_of_ws b (by rw [isWs_iff]; exact Or.inl rfl)
        rw [this]
        simp
    | cons d ds =>
      rw [show wsOk (c :: d :: ds) = ((!isWs c || (c == 32 && !isWs d)) && wsOk (d :: ds)) from rfl,
        Bool.and_eq_true] at h
      rw [show pyTitleAux (isAlphaA c) (d :: ds) = titleChar (isAlphaA c) d :: pyTitleAux (isAlphaA d) ds from rfl,
        show wsOk (titleChar b c :: titleChar (isAlphaA c) d :: pyTitleAux (isAlphaA d) ds) =
          ((!isWs (titleChar b c) || (titleChar b c == 32 && !isWs (titleChar (isAlphaA c) d))) &&
            wsOk (titleChar (isAlphaA c) d :: pyTitleAux (isAlphaA d) ds)) from rfl,
        Bool.and_eq_true]
      constructor
      · rw [isWs_titleChar, isWs_titleChar]
        rcases Bool.or_eq_true_iff.mp h.1 with h1 | h1
        · rw [h1]; rfl
        · rw [Bool.and_eq_true] at h1
          simp only [beq_iff_eq] at h1
          have : titleChar b c = 32 := by
            rw [h1.1] at *
            exact titleChar_of_ws b (by rw [isWs_iff]; exact Or.inl rfl)
          rw [this, h1.2]
          simp
      · have := ih (isAlphaA c) h.2
        rw [show pyTitleAux (isAlphaA c) (d :: ds) = titleChar (isAlphaA c) d :: pyTitleAux (isAlphaA d) ds from rfl] at this
        exact this

/-! ## Structure of `clean_interest` output -/

theorem collapseWs_eq (l : List Nat) : collapseWs l = collapseAux false l := rfl

theorem wsOk_collapseWs (l : List Nat) : wsOk (collapseWs l) = true :=
  wsOk_collapseAux l false

theorem collapseWs_id {l : List Nat} (h : wsOk l = true) : collapseWs l = l :=
  collapseAux_id l h

theorem clean_interest_eq (s : List Nat) : clean_interest s = pyTitle (cleanCore s) := by
  unfold clean_interest
  split
  · rename_i h
    rw [h]
    rfl
  · rfl

theorem pyTitleAux_head_status {p : Nat → Bool} (hp : ∀ b c, p (titleChar b c) = p c)
    (b : Bool) (l : List Nat) : ((pyTitleAux b l).head?).map p = (l.head?).map p := by
  rw [← List.head?_map, ← List.head?_map, pyTitleAux_map_inv p hp]

theorem pyTitleAux_getLast_status {p : Nat → Bool} (hp : ∀ b c, p (titleChar b c) = p c)
    (b : Bool) (l : List Nat) : ((pyTitleAux b l).getLast?).map p = (l.getLast?).map p := by
  rw [← List.getLast?_map, ← List.getLast?_map, pyTitleAux_map_inv p hp]

theorem cleanCore_head_not_ws {s : List Nat} {d : Nat}
    (h : (cleanCore s).head? = some d) : isWs d = false := by
  have hne : cleanCore s ≠ [] := by
    intro he
    rw [he] at h
    exact Option.noConfusion h
  have hdec := stripTrailingPunct_decomp (collapseWs (pyStrip s))
  have hu : (collapseWs (pyStrip s)).head? = some d := by
    rw [hdec,
      show stripTrailingPunct (collapseWs (pyStrip s)) = cleanCore s from rfl,
      head?_append_left hne]
    exact h
  cases hv : pyStrip s with
  | nil =>
    rw [hv] at hu
    exact Option.noConfusion hu
  | cons c cs =>
    have hc : isWs c = false := pyStrip_head_not_ws (by rw [hv]; rfl)
    rw [collapseWs_eq, collapseAux_head_of_not_ws hv hc, List.head?_cons,
      Option.some.injEq] at hu
    rw [← hu]
    exact hc

theorem clean_head_not_ws {s : List Nat} {d : Nat}
    (h : (clean_interest s).head? = some d) : isWs d = false := by
  rw [clean_interest_eq] at h
  have ht := pyTitleAux_head_status isWs_titleChar false (cleanCore s)
  rw [show pyTitle (cleanCore s) = pyTitleAux false (cleanCore s) from rfl] at h
  rw [h] at ht
  cases hx : (cleanCore s).head? with
  | none =>
    rw [hx] at ht
    exact Option.noConfusion ht
  | some e =>
    rw [hx] at ht
    simp only [Option.map_some', Option.some.injEq] at ht
    rw [ht]
    exact cleanCore_head_not_ws hx

theorem clean_wsOk (s : List Nat) : wsOk (clean_interest s) = true := by
  rw [clean_interest_eq]
  apply wsOk_pyTitleAux
  have hu : wsOk (collapseWs (pyStrip s)) = true := wsOk_collapseWs (pyStrip s)
  rw [stripTrailingPunct_decomp (collapseWs (pyStrip s))] at hu
  exact wsOk_append_left _ _ hu

theorem clean_getLast_not_punct {s : List Nat} {d : Nat}
    (h : (clean_interest s).getLast? = some d) : isPunct d = false := by
  rw [clean_interest_eq] at h
  have ht := pyTitleAux_getLast_status isPunct_titleChar false (cleanCore s)
  rw [show pyTitle (cleanCore s) = pyTitleAux false (cleanCore s) from rfl] at h
  rw [h] at ht
  cases hx : (cleanCore s).getLast? with
  | none =>
    rw [hx] at ht
    exact Option.noConfusion ht
  | some e =>
    rw [hx] at ht
    simp only [Option.map_some', Option.some.injEq] at ht
    rw [ht]
    exact stripTrailingPunct_getLast_not_punct hx

theorem noTrailWs_spec {l : List Nat} (h : noTrailWs l = true) :
    ∀ d, l.getLast? = some d → isWs d = false := by
  intro d hd
  unfold noTrailWs at h
  rw [hd] at h
  simpa using h

theorem clean_interest_fix {s : List Nat}
    (h : ∀ d, (clean_interest s).getLast? = some d → isWs d = false) :
    clean_interest (clean_interest s) = clean_interest s := by
  rw [clean_interest_eq (clean_interest s)]
  unfold cleanCore
  rw [pyStrip_eq_self (fun d hd => clean_head_not_ws hd) h]
  rw [collapseWs_id (clean_wsOk s)]
  rw [stripTrailingPunct_eq_self (fun d hd => clean_getLast_not_punct hd)]
  rw [clean_interest_eq s]
  exact pyTitleAux_idem false (cleanCore s)

theorem clean_interest_congr {s t : List Nat} (h : lowerKey s = lowerKey t) :
    clean_interest s = clean_interest t := by
  rw [clean_interest_eq, clean_interest_eq]
  exact pyTitleAux_congr false (cleanCore s) (cleanCore t) h

/-! ## Stable descending sort lemmas -/

theorem insD_perm {α β : Type} [LinearOrder β] (key : α → β) (x : α) (l : List α) :
    (insD key x l).Perm (x :: l) := by
  induction l with
  | nil => exact List.Perm.refl _
  | cons y ys ih =>
    unfold insD
    split
    · exact List.Perm.refl _
    · exact List.Perm.trans (List.Perm.cons y ih) (List.Perm.swap x y ys)

theorem sortD_perm {α β : Type} [LinearOrder β] (key : α → β) (l : List α) :
    (sortD key l).Perm l := by
  induction l with
  | nil => exact List.Perm.refl _
  | cons x xs ih =>
    exact List.Perm.trans (insD_perm key x (sortD key xs)) (List.Perm.cons x ih)

theorem mem_sortD {α β : Type} [LinearOrder β] {key : α → β} {l : List α} {a : α} :
    a ∈ sortD key l ↔ a ∈ l :=
  (sortD_perm key l).mem_iff

theorem length_sortD {α β : Type} [LinearOrder β] (key : α → β) (l : List α) :
    (sortD key l).length = l.length :=
  (sortD_perm key l).length_eq

theorem mem_insD {α β : Type} [LinearOrder β] {key : α → β} {x a : α} {l : List α} :
    a ∈ insD key x l ↔ a = x ∨ a ∈ l := by
  rw [(insD_perm key x l).mem_iff, List.mem_cons]

theorem insD_pairwise {α β : Type} [LinearOrder β] (key : α → β) (x : α) {l : List α}
    (h : l.Pairwise (fun a b => key b ≤ key a)) :
    (insD key x l).Pairwise (fun a b => key b ≤ key a) := by
  induction l with
  | nil => exact List.pairwise_singleton _ x
  | cons y ys ih =>
    rw [List.pairwise_cons] at h
    unfold insD
    split
    · rename_i hyx
      rw [List.pairwise_cons]
      refine ⟨?_, List.pairwise_cons.mpr h⟩
      intro z hz
      rcases List.mem_cons.mp hz with hz | hz
      · rw [hz]; exact hyx
      · exact le_trans (h.1 z hz) hyx
    · rename_i hyx
      rw [List.pairwise_cons]
      refine ⟨?_, ih h.2⟩
      intro z hz
      rcases mem_insD.mp hz with hz | hz
      · rw [hz]; exact le_of_lt (lt_of_not_le hyx)
      · exact h.1 z hz

theorem sortD_pairwise {α β : Type} [LinearOrder β] (key : α → β) (l : List α) :
    (sortD key l).Pairwise (fun a b => key b ≤ key a) := by
  induction l with
  | nil => exact List.Pairwise.nil
  | cons x xs ih => exact insD_pairwise key x ih

theorem insD_filter {α β : Type} [LinearOrder β] (key : α → β) (x : α) (l : List α) (k : β) :
    (insD key x l).filter (fun a => decide (key a = k)) =
      if key x = k then x :: l.filter (fun a => decide (key a = k))
      else l.filter (fun a => decide (key a = k)) := by
  induction l with
  | nil =>
    unfold insD
    by_cases hx : key x = k <;>
      simp only [List.filter_cons, List.filter_nil, decide_eq_true_eq, if_pos, if_neg, hx] <;>
      simp [hx]
  | cons y ys ih =>
    unfold insD
    split
    · rename_i hyx
      by_cases hx : key x = k
      · simp only [List.filter_cons, decide_eq_true_eq, if_pos hx]
      · simp only [List.filter_cons, decide_eq_true_eq, if_neg hx]
    · rename_i hyx
      have hxy : key x < key y := lt_of_not_le hyx
      by_cases hx : key x = k
      · have hy : ¬(key y = k) := fun he => absurd (hx.trans he.symm) (ne_of_lt hxy)
        simp only [List.filter_cons, ih, decide_eq_true_eq, if_pos hx, if_neg hy]
      · simp only [List.filter_cons, ih, decide_eq_true_eq, if_neg hx]

theorem sortD_filter {α β : Type} [LinearOrder β] (key : α → β) (l : List α) (k : β) :
    (sortD key l).filter (fun a => decide (key a = k)) =
      l.filter (fun a => decide (key a = k)) := by
  induction l with
  | nil => rfl
  | cons x xs ih =>
    by_cases hx : key x = k
    · simp only [show sortD key (x :: xs) = insD key x (sortD key xs) from rfl, insD_filter,
        List.filter_cons, decide_eq_true_eq, if_pos hx, ih]
    · simp only [show sortD key (x :: xs) = insD key x (sortD key xs) from rfl, insD_filter,
        List.filter_cons, decide_eq_true_eq, if_neg hx, ih]

/-! ## Aggregation engine lemmas -/

theorem mem_addLabel {acc : List (List Nat)} {r f : List Nat} :
    f ∈ addLabel acc r ↔ f ∈ acc ∨ (clean_interest r = f ∧ f ≠ []) := by
  unfold addLabel
  by_cases hc : clean_interest r = []
  · rw [if_pos hc]
    constructor
    · exact Or.inl
    · rintro (h | ⟨h1, h2⟩)
      · exact h
      · exact absurd (h1 ▸ hc) h2
  · rw [if_neg hc]
    by_cases hm : clean_interest r ∈ acc
    · rw [if_pos hm]
      constructor
      · exact Or.inl
      · rintro (h | ⟨h1, h2⟩)
        · exact h
        · exact h1 ▸ hm
    · rw [if_neg hm]
      rw [List.mem_append, List.mem_singleton]
      constructor
      · rintro (h | h)
        · exact Or.inl h
        · exact Or.inr ⟨h.symm, h ▸ hc⟩
      · rintro (h | ⟨h1, h2⟩)
        · exact Or.inl h
        · exact Or.inr h1.symm

theorem mem_foldl_addLabel {rs : List (List Nat)} :
    ∀ {acc : List (List Nat)} {f : List Nat},
      f ∈ rs.foldl addLabel acc ↔ f ∈ acc ∨ ∃ r ∈ rs, clean_interest r = f ∧ f ≠ [] := by
  induction rs with
  | nil => simp
  | cons r rest ih =>
    intro acc f
    rw [List.foldl_cons, ih, mem_addLabel]
    constructor
    · rintro ((h | h) | ⟨r2, hr2, h⟩)
      · exact Or.inl h
      · exact Or.inr ⟨r, List.mem_cons_self r rest, h⟩
      · exact Or.inr ⟨r2, List.mem_cons_of_mem r hr2, h⟩
    · rintro (h | ⟨r2, hr2, h⟩)
      · exact Or.inl (Or.inl h)
      · rcases List.mem_cons.mp hr2 with he | he
        · exact Or.inl (Or.inr (he ▸ h))
        · exact Or.inr ⟨r2, he, h⟩

theorem mem_extract_unique_interests {authors : List Author} {f : List Nat} :
    f ∈ extract_unique_interests authors ↔
      ∃ a ∈ authors, ∃ r ∈ iterInterests a.profile_interests,
        clean_interest r = f ∧ f ≠ [] := by
  unfold extract_unique_interests
  suffices h : ∀ (acc : List (List Nat)),
      f ∈ authors.foldl (fun acc a => (iterInterests a.profile_interests).foldl addLabel acc) acc ↔
        f ∈ acc ∨ ∃ a ∈ authors, ∃ r ∈ iterInterests a.profile_interests,
          clean_interest r = f ∧ f ≠ [] by
    rw [h []]
    simp
  induction authors with
  | nil => simp
  | cons a rest ih =>
    intro acc
    rw [List.foldl_cons, ih, mem_foldl_addLabel]
    constructor
    · rintro ((h | ⟨r, hr, h⟩) | ⟨a2, ha2, hr⟩)
      · exact Or.inl h
      · exact Or.inr ⟨a, List.mem_cons_self a rest, r, hr, h⟩
      · exact Or.inr ⟨a2, List.mem_cons_of_mem a ha2, hr⟩
    · rintro (h | ⟨a2, ha2, hr⟩)
      · exact Or.inl (Or.inl h)
      · rcases List.mem_cons.mp ha2 with he | he
        · exact Or.inl (Or.inr (he ▸ hr))
        · exact Or.inr ⟨a2, he, hr⟩

theorem matchesField_iff {a : Author} {f : List Nat} :
    matchesField a f = true ↔
      ∃ r ∈ iterInterests a.profile_interests, clean_interest r = f := by
  unfold matchesField
  rw [List.any_eq_true]
  constructor
  · rintro ⟨r, hr, he⟩
    exact ⟨r, hr, by simpa using he⟩
  · rintro ⟨r, hr, he⟩
    exact ⟨r, hr, by simpa using he⟩

theorem fieldMembers_length {f : List Nat} :
    ∀ {authors : List Author} {ms : List Entry},
      fieldMembers f authors = some ms →
      ms.length = authors.countP (fun a => matchesField a f) := by
  intro authors
  induction authors with
  | nil =>
    intro ms h
    rw [show fieldMembers f [] = some [] from rfl, Option.some.injEq] at h
    rw [← h]
    rfl
  | cons a rest ih =>
    intro ms h
    unfold fieldMembers at h
    rw [List.countP_cons]
    by_cases hm : matchesField a f = true
    · rw [if_pos hm] at h
      rw [hm, if_pos rfl]
      cases he : authorEntry a with
      | none => rw [he] at h; exact Option.noConfusion h
      | some e =>
        cases hr : fieldMembers f rest with
        | none => rw [he, hr] at h; exact Option.noConfusion h
        | some es =>
          rw [he, hr, Option.some.injEq] at h
          rw [← h, List.length_cons, ih hr]
    · rw [if_neg hm] at h
      rw [Bool.not_eq_true] at hm
      rw [hm]
      simp only [if_neg Bool.false_ne_true, Nat.add_zero]
      exact ih h

theorem fieldMembers_ne_nil_iff {f : List Nat} {authors : List Author} {ms : List Entry}
    (h : fieldMembers f authors = some ms) :
    ms ≠ [] ↔ ∃ a ∈ authors, matchesField a f = true := by
  rw [← List.length_pos_iff_ne_nil, fieldMembers_length h, List.countP_pos]

theorem calculate_mem {authors : List Author} :
    ∀ {uniq : List (List Nat)} {fs : List (List Nat × FieldStats)},
      calculate_field_statistics authors uniq = some fs →
      ∀ {f : List Nat} {st : FieldStats}, (f, st) ∈ fs →
        ∃ ms, fieldMembers f authors = some ms ∧ ms ≠ [] ∧ st = mkStats ms := by
  intro uniq
  induction uniq with
  | nil =>
    intro fs h f st hm
    rw [show calculate_field_statistics authors [] = some [] from rfl,
      Option.some.injEq] at h
    rw [← h] at hm
    exact absurd hm (List.not_mem_nil _)
  | cons g rest ih =>
    intro fs h f st hm
    unfold calculate_field_statistics at h
    cases hg : fieldMembers g authors with
    | none => rw [hg] at h; exact Option.noConfusion h
    | some gs =>
      rw [hg] at h
      cases gs with
      | nil => exact ih h hm
      | cons m ms0 =>
        cases hr : calculate_field_statistics authors rest with
        | none => rw [hr] at h; exact Option.noConfusion h
        | some rest2 =>
          rw [hr, Option.some.injEq] at h
          rw [← h, List.mem_cons] at hm
          rcases hm with hm | hm
          · rw [Prod.mk.injEq] at hm
            exact ⟨m :: ms0, hm.1 ▸ hg, List.cons_ne_nil m ms0, hm.2⟩
          · exact ih hr hm

theorem calculate_keys {authors : List Author} :
    ∀ {uniq : List (List Nat)} {fs : List (List Nat × FieldStats)},
      calculate_field_statistics authors uniq = some fs →
      (∀ f ∈ uniq, ∃ a ∈ authors, matchesField a f = true) →
      fs.map Prod.fst = uniq := by
  intro uniq
  induction uniq with
  | nil =>
    intro fs h _
    rw [show calculate_field_statistics authors [] = some [] from rfl,
      Option.some.injEq] at h
    rw [← h]
    rfl
  | cons g rest ih =>
    intro fs h hne
    unfold calculate_field_statistics at h
    cases hg : fieldMembers g authors with
    | none => rw [hg] at h; exact Option.noConfusion h
    | some gs =>
      rw [hg] at h
      cases gs with
      | nil =>
        exact absurd ((fieldMembers_ne_nil_iff hg).mpr (hne g (List.mem_cons_self g rest)))
          (by simp)
      | cons m ms0 =>
        cases hr : calculate_field_statistics authors rest with
        | none => rw [hr] at h; exact Option.noConfusion h
        | some rest2 =>
          rw [hr, Option.some.injEq] at h
          rw [← h, List.map_cons]
          rw [ih hr (fun f hf => hne f (List.mem_cons_of_mem g hf))]

theorem computeResults_some {authors : List Author} {r : Results}
    (h : computeResults authors = some r) :
    ∃ fs, calculate_field_statistics authors (extract_unique_interests authors) = some fs ∧
      r.research_fields_statistics = sortD (fun p => p.2.average_h_index) fs ∧
      r.total_authors = authors.length ∧
      r.total_unique_fields = fs.length := by
  unfold computeResults at h
  cases hc : calculate_field_statistics authors (extract_unique_interests authors) with
  | none => rw [hc] at h; exact Option.noConfusion h
  | some fs =>
    rw [hc, Option.some.injEq] at h
    exact ⟨fs, rfl, by rw [← h], by rw [← h], by rw [← h]⟩

theorem extract_all_matched {authors : List Author} :
    ∀ f ∈ extract_unique_interests authors, ∃ a ∈ authors, matchesField a f = true := by
  intro f hf
  obtain ⟨a, ha, rr, hr, hc, _⟩ := mem_extract_unique_interests.mp hf
  exact ⟨a, ha, matchesField_iff.mpr ⟨rr, hr, hc⟩⟩

theorem matchesField_empty {a : Author} (h : iterInterests a.profile_interests = [])
    (f : List Nat) : matchesField a f = false := by
  unfold matchesField
  rw [h]
  rfl

theorem extract_skip (pre post : List Author) (a : Author)
    (h : iterInterests a.profile_interests = []) :
    extract_unique_interests (pre ++ a :: post) = extract_unique_interests (pre ++ post) := by
  unfold extract_unique_interests
  rw [List.foldl_append, List.foldl_append, List.foldl_cons, h]
  rfl

theorem fieldMembers_skip (f : List Nat) (pre post : List Author) (a : Author)
    (h : iterInterests a.profile_interests = []) :
    fieldMembers f (pre ++ a :: post) = fieldMembers f (pre ++ post) := by
  induction pre with
  | nil =>
    show fieldMembers f (a :: post) = fieldMembers f post
    conv_lhs => unfold fieldMembers
    rw [matchesField_empty h f]
    simp
  | cons p ps ih =>
    show fieldMembers f (p :: (ps ++ a :: post)) = fieldMembers f (p :: (ps ++ post))
    unfold fieldMembers
    rw [ih]

/-! ## Claims -/

/-- C1 counterexample: `clean_interest` is not idempotent.  On the input
"a ." the trailing punctuation strip exposes a trailing space that
title-casing keeps, so the output is "A "; cleaning again strips that
space and yields "A". -/
theorem C1_counterexample :
    clean_interest (clean_interest (pystr "a .")) ≠ clean_interest (pystr "a .") := by
  decide

/-- C1 (amended): normalization is idempotent on every string whose
normalized form has no trailing whitespace — re-normalizing such an
output returns it unchanged. -/
theorem C1_idempotent_no_trailing_ws (s : List Nat)
    (h : noTrailWs (clean_interest s) = true) :
    clean_interest (clean_interest s) = clean_interest s :=
  clean_interest_fix (noTrailWs_spec h)

/-- Witness for C1 (amended) at the concrete input "deep learning.". -/
theorem C1_idempotent_witness :
    noTrailWs (clean_interest (pystr "deep learning.")) = true ∧
      clean_interest (clean_interest (pystr "deep learning.")) =
        clean_interest (pystr "deep learning.") :=
  ⟨by decide, C1_idempotent_no_trailing_ws (pystr "deep learning.") (by decide)⟩

/-- C2: for every input and every field label of the computed statistics,
the field's `count` equals the number of author records having at least
one raw interest normalizing to that label — each matching author is
counted exactly once however many of its raw interests normalize to the
label (the inner loop breaks at the first match). -/
theorem C2_count_distinct_authors (authors : List Author) (r : Results)
    (h : computeResults authors = some r) (f : List Nat) (st : FieldStats)
    (hm : (f, st) ∈ r.research_fields_statistics) :
    st.count = authors.countP (fun a => matchesField a f) := by
  obtain ⟨fs, hc, hrfs, _, _⟩ := computeResults_some h
  rw [hrfs] at hm
  obtain ⟨ms, hms, hne, hst⟩ := calculate_mem hc (mem_sortD.mp hm)
  rw [hst]
  show ms.length = _
  exact fieldMembers_length hms

/-- Witness for C2: Alice lists "AI" and "ai." and is counted once in
field "Ai". -/
theorem C2_witness :
    wStatsAi.count = wAuthors.countP (fun a => matchesField a (pystr "Ai")) :=
  C2_count_distinct_authors wAuthors wResults (by decide) (pystr "Ai") wStatsAi (by decide)

/-- C3: a `hindex` value that `int(...)` cannot coerce makes the whole
computation abort — `computeResults` is `none` (the `ValueError` escapes
`process_authors_file`, which also writes no output) instead of
defaulting the single author's metric to 0 as the spec requires. -/
theorem C3_bad_metric_aborts :
    computeResults [badMetricAuthor] = none ∧
      process_authors_file (.ok [badMetricAuthor]) true = none := by
  decide

/-- C4 counterexample: leading punctuation is not removed by
`clean_interest`, so two strings that differ only in surrounding
punctuation (modelled by `specSurroundKey`, which trims the terminator
set at both ends) can normalize differently: ".a" and "a" agree under
`specSurroundKey` but normalize to ".A" and "A". -/
theorem C4_counterexample :
    specSurroundKey (pystr ".a") = specSurroundKey (pystr "a") ∧
      clean_interest (pystr ".a") ≠ clean_interest (pystr "a") := by
  decide

/-- C4 (amended): two raw strings that differ only in whitespace
run-length, trailing terminator punctuation, or letter case (equal
`lowerKey`) normalize to the same key; in particular
"  Machine Learning!!" and "machine   learning" both normalize to
"Machine Learning". -/
theorem C4_trailing_insensitivity :
    (∀ s t : List Nat, lowerKey s = lowerKey t → clean_interest s = clean_interest t) ∧
      clean_interest (pystr "  Machine Learning!!") = pystr "Machine Learning" ∧
      clean_interest (pystr "machine   learning") = pystr "Machine Learning" :=
  ⟨fun s t h => clean_interest_congr h, by decide, by decide⟩

/-- Witness for C4 (amended) at the two concrete strings of the claim. -/
theorem C4_witness :
    clean_interest (pystr "  Machine Learning!!") =
      clean_interest (pystr "machine   learning") :=
  C4_trailing_insensitivity.1 (pystr "  Machine Learning!!") (pystr "machine   learning")
    (by decide)

/-- C5 counterexample: an author whose `profile_interests` is the plain
string "AI" is not treated as having no interests — Python iterates the
string character by character, so the author contributes the one-letter
field labels "A" and "I" and is a member of both. -/
theorem C5_counterexample :
    extract_unique_interests [strInterestsAuthor] = [pystr "A", pystr "I"] ∧
      fieldMembers (pystr "A") [strInterestsAuthor] = some [⟨pystr "S", pystr "N/A", 4, 1⟩] := by
  decide

/-- C5 (amended): an author whose `profile_interests` is absent or empty
(the falsy values: missing key, empty list, empty string) contributes no
field labels and no field membership anywhere, and no error is raised. -/
theorem C5_empty_interests_ignored (pre post : List Author) (a : Author)
    (h : iterInterests a.profile_interests = []) :
    extract_unique_interests (pre ++ a :: post) = extract_unique_interests (pre ++ post) ∧
      ∀ f, fieldMembers f (pre ++ a :: post) = fieldMembers f (pre ++ post) :=
  ⟨extract_skip pre post a h, fun f => fieldMembers_skip f pre post a h⟩

/-- Witness for C5 (amended): dropping an interest-less author between
two others leaves the extracted field universe unchanged. -/
theorem C5_witness :
    iterInterests emptyInterestsAuthor.profile_interests = [] ∧
      extract_unique_interests ([wA1] ++ emptyInterestsAuthor :: [wA2]) =
        extract_unique_interests ([wA1] ++ [wA2]) :=
  ⟨by decide, (C5_empty_interests_ignored [wA1] [wA2] emptyInterestsAuthor (by decide)).1⟩

/-- C6: the exported `research_fields_statistics` mapping is
non-increasing in `average_h_index` in iteration order, and the re-sort
is stable: restricted to any one average value, the exported order equals
the insertion order of the underlying `field_stats` mapping. -/
theorem C6_export_sorted_stable (authors : List Author) (r : Results)
    (h : computeResults authors = some r) :
    r.research_fields_statistics.Pairwise
        (fun p q => q.2.average_h_index ≤ p.2.average_h_index) ∧
      ∀ fs, calculate_field_statistics authors (extract_unique_interests authors) = some fs →
        ∀ k : Int,
          r.research_fields_statistics.filter (fun p => decide (p.2.average_h_index = k)) =
            fs.filter (fun p => decide (p.2.average_h_index = k)) := by
  obtain ⟨fs0, hc, hrfs, _, _⟩ := computeResults_some h
  constructor
  · rw [hrfs]
    exact sortD_pairwise _ fs0
  · intro fs hfs k
    rw [hc, Option.some.injEq] at hfs
    rw [hrfs, ← hfs]
    exact sortD_filter (fun p => p.2.average_h_index) fs0 k

/-- Witness for C6 on the two-field input `wAuthors`. -/
theorem C6_witness :
    wResults.research_fields_statistics.Pairwise
      (fun p q => q.2.average_h_index ≤ p.2.average_h_index) :=
  (C6_export_sorted_stable wAuthors wResults (by decide)).1

/-- C7: every field's `authors` list is sorted by descending `hindex`,
and the sort is stable: restricted to any one h-index value it equals the
membership list in input order. -/
theorem C7_field_authors_sorted (authors : List Author) (r : Results)
    (h : computeResults authors = some r) (f : List Nat) (st : FieldStats)
    (hm : (f, st) ∈ r.research_fields_statistics) :
    st.authors.Pairwise (fun e1 e2 => e2.hindex ≤ e1.hindex) ∧
      ∀ ms, fieldMembers f authors = some ms →
        ∀ k : Int, st.authors.filter (fun e => decide (e.hindex = k)) =
          ms.filter (fun e => decide (e.hindex = k)) := by
  obtain ⟨fs, hc, hrfs, _, _⟩ := computeResults_some h
  rw [hrfs] at hm
  obtain ⟨ms0, hms0, hne, hst⟩ := calculate_mem hc (mem_sortD.mp hm)
  constructor
  · rw [hst]
    show (sortD (fun e => e.hindex) ms0).Pairwise _
    exact sortD_pairwise _ ms0
  · intro ms hms k
    rw [hms0, Option.some.injEq] at hms
    rw [hst, ← hms]
    show (sortD (fun e => e.hindex) ms0).filter _ = _
    exact sortD_filter (fun e => e.hindex) ms0 k

/-- Witness for C7 on field "Ai" of `wAuthors`. -/
theorem C7_witness :
    wStatsAi.authors.Pairwise (fun e1 e2 => e2.hindex ≤ e1.hindex) :=
  (C7_field_authors_sorted wAuthors wResults (by decide) (pystr "Ai") wStatsAi (by decide)).1

/-- C8: when the input file does not exist, `process_authors_file`
returns the empty-result indicator and writes no output file, whatever
the output-path argument. -/
theorem C8_missing_input (b : Bool) :
    process_authors_file .missing b = some (none, false) := rfl

/-- Witness for C8 at the concrete output-path argument `true`. -/
theorem C8_witness : process_authors_file .missing true = some (none, false) :=
  C8_missing_input true

/-- C9: on the empty author list the computed result has no fields, zero
totals, and all three summary facts null, with no error raised. -/
theorem C9_empty_input :
    computeResults [] =
      some { research_fields_statistics := [], total_authors := 0, total_unique_fields := 0,
             summary := { top_field_by_avg_h_index := none, most_popular_field := none,
                          field_with_highest_max_h_index := none } } := by
  decide

/-- C10: the computed statistics cover exactly the field universe: the
keys of the pre-sort mapping equal `extract_unique_interests` in order
(so the zero-author omission branch is never taken), the exported keys
are a permutation of the universe, every field has `count ≥ 1` with
`count` equal to the length of its author list, and
`total_unique_fields` is the size of the universe. -/
theorem C10_keys_eq_universe (authors : List Author) (r : Results)
    (h : computeResults authors = some r) :
    (∀ fs, calculate_field_statistics authors (extract_unique_interests authors) = some fs →
        fs.map Prod.fst = extract_unique_interests authors) ∧
      (r.research_fields_statistics.map Prod.fst).Perm (extract_unique_interests authors) ∧
      (∀ f st, (f, st) ∈ r.research_fields_statistics →
        1 ≤ st.count ∧ st.count = st.authors.length) ∧
      r.total_unique_fields = (extract_unique_interests authors).length := by
  obtain ⟨fs0, hc, hrfs, _, htuf⟩ := computeResults_some h
  have hkeys : fs0.map Prod.fst = extract_unique_interests authors :=
    calculate_keys hc extract_all_matched
  refine ⟨?_, ?_, ?_, ?_⟩
  · intro fs hfs
    rw [hc, Option.some.injEq] at hfs
    rw [← hfs]
    exact hkeys
  · rw [hrfs, ← hkeys]
    exact List.Perm.map Prod.fst (sortD_perm _ fs0)
  · intro f st hm
    rw [hrfs] at hm
    obtain ⟨ms, hms, hne, hst⟩ := calculate_mem hc (mem_sortD.mp hm)
    constructor
    · rw [hst]
      show 1 ≤ ms.length
      have hpos : 0 < ms.length := List.length_pos_iff_ne_nil.mpr hne
      omega
    · rw [hst]
      show ms.length = (sortD (fun e => e.hindex) ms).length
      rw [length_sortD]
  · rw [htuf, ← hkeys, List.length_map]

/-- Witness for C10 on `wAuthors`. -/
theorem C10_witness :
    wResults.total_unique_fields = (extract_unique_interests wAuthors).length :=
  (C10_keys_eq_universe wAuthors wResults (by decide)).2.2.2
